import Mathlib

/-!
Shallow embedding of the MWD (molecular-weight-distribution) statistics
scripts of the ATRP_KMC_SAA repository:

* `src/output/output_data/PDI/comparison_MWD_con.py`     (namespace `Con`)
* `src/output/output_data/PDI/comparison_MWD_con_50.py`  (namespace `Con50`)

Conventions of the embedding:

* Python floats (numpy `float64`) are modelled by exact rationals `ℚ`;
  rounding of `float64` is not modelled.
* numpy integer arrays hold 64-bit signed integers; where the scripts do
  integer arithmetic that can wrap (`lengths**2` and `np.sum` on an `int64`
  array in `comparison_MWD_con.py`, and `sum_lengths = np.sum(...)` at
  line 63 of `comparison_MWD_con_50.py`), the wraparound is modelled
  explicitly with `i64wrap`.
* The file system is modelled as a partial map `String → Option String`
  from paths to file contents; `none` means the path does not reference an
  existing readable file.
* Python strings are handled at the character-list level; `str.split()`
  (whitespace splitting, empty tokens discarded) and `str.isdigit` /
  `int(_)` are modelled for ASCII text.
* An uncaught Python exception is modelled as the `none` result.
-/

namespace ATRP

/-! ## Python string helpers -/

/-- ASCII version of Python `str.isdigit` on a single character:
the character is one of `0`..`9`. -/
def pyIsDigitChar (c : Char) : Bool :=
  decide (48 ≤ c.toNat ∧ c.toNat ≤ 57)

/-- Value of a string of decimal digits, most significant digit first
(the result of Python `int(_)` on a digit string). -/
def digitsValL (cs : List Char) : Int :=
  cs.foldl (fun a c => 10 * a + ((c.toNat : Int) - 48)) 0

/-- String-level wrapper for `digitsValL`. -/
def digitsVal (s : String) : Int :=
  digitsValL s.data

/-- ASCII version of Python `str.isdigit`: non-empty and all characters
decimal digits. -/
def pyIsDigit (s : String) : Bool :=
  !s.data.isEmpty && s.data.all pyIsDigitChar

/-- Python `int(x)` on the characters of a whitespace-free token (ASCII):
an optional sign followed by a non-empty run of digits; any other shape
raises `ValueError`, modelled as `none`. -/
def pyParseIntL : List Char → Option Int
  | [] => none
  | c :: cs =>
    if c = '+' then
      if !cs.isEmpty && cs.all pyIsDigitChar then some (digitsValL cs) else none
    else if c = '-' then
      if !cs.isEmpty && cs.all pyIsDigitChar then some (-(digitsValL cs)) else none
    else
      if (c :: cs).all pyIsDigitChar then some (digitsValL (c :: cs)) else none

/-- String-level wrapper for `pyParseIntL`. -/
def pyParseInt (s : String) : Option Int :=
  pyParseIntL s.data

/-- Helper for `pySplit`: walk the characters, accumulating the current
token (in reverse) and emitting it at each whitespace run or at the end. -/
def splitWsAux : List Char → List Char → List String
  | [], acc => if acc.isEmpty then [] else [String.mk acc.reverse]
  | c :: cs, acc =>
    if c.isWhitespace then
      if acc.isEmpty then splitWsAux cs [] else String.mk acc.reverse :: splitWsAux cs []
    else
      splitWsAux cs (c :: acc)

/-- Python `str.split()` with no arguments: split on runs of whitespace,
discarding empty tokens. -/
def pySplit (s : String) : List String :=
  splitWsAux s.data []

/-! ## Loader of `comparison_MWD_con.py` (lines 25-29)

    def read_chain_lengths(filepath):
        with open(filepath, 'r') as f:
            data = f.read().split()
        return np.array([int(x) for x in data])

`open` on a missing file raises `FileNotFoundError` and `int(x)` on a
malformed token raises `ValueError`; neither is caught, so both are
modelled as `none`. -/

namespace Con

/-- Parse every token with Python `int(_)`; the first failure aborts the
whole comprehension (uncaught `ValueError`). -/
def parseAll : List String → Option (List Int)
  | [] => some []
  | t :: ts =>
    match pyParseInt t, parseAll ts with
    | some v, some vs => some (v :: vs)
    | _, _ => none

/-- `read_chain_lengths` of `comparison_MWD_con.py`. -/
def read_chain_lengths (fs : String → Option String) (path : String) :
    Option (List Int) :=
  match fs path with
  | none => none
  | some content => parseAll (pySplit content)

end Con

/-! ## Loader of `comparison_MWD_con_50.py` (lines 7-28)

    if not os.path.exists(filepath): return None
    data = file.read().split()
    lengths = [int(length) for length in data if length.strip().isdigit()]
    if not lengths: return np.array([])
    return np.array(lengths)

Tokens produced by `split()` contain no whitespace, so `strip()` is the
identity on them. -/

namespace Con50

/-- Result of `read_chain_lengths` in `comparison_MWD_con_50.py`:
either Python `None` (file missing / unreadable) or a numpy array of the
parsed integers (empty when no token passed the digit test). -/
inductive LoadResult where
  | pyNone : LoadResult
  | arr : List Int → LoadResult
deriving DecidableEq

/-- The list comprehension of line 18: keep each token that passes
`isdigit`, parsed with `int(_)`, in encounter order. -/
def parseTokens (toks : List String) : List Int :=
  toks.filterMap (fun t => if pyIsDigit t then some (digitsVal t) else none)

/-- `read_chain_lengths` of `comparison_MWD_con_50.py`. -/
def read_chain_lengths (fs : String → Option String) (path : String) :
    LoadResult :=
  match fs path with
  | none => .pyNone
  | some content => .arr (parseTokens (pySplit content))

end Con50

/-! ## Filter (comparison_MWD_con_50.py, lines 54-56)

    filtered_chain_lengths = chain_lengths[chain_lengths >= 3]
    removed_chains = total_chains - len(filtered_chain_lengths)

numpy boolean-mask selection: walk the array and keep each element whose
mask entry (`x >= t`) is true. -/

/-- Boolean-mask selection `a[a >= t]`. -/
def numpyFilterGE : List Int → Int → List Int
  | [], _ => []
  | x :: xs, t => if t ≤ x then x :: numpyFilterGE xs t else numpyFilterGE xs t

/-- `removed_chains`: original length minus filtered length. -/
def removed_chains (l : List Int) (t : Int) : Nat :=
  l.length - (numpyFilterGE l t).length

/-! ## int64 wraparound arithmetic

numpy `int64` values wrap modulo 2^64 (signed) on overflow. -/

/-- Wrap an integer into the signed 64-bit range, as numpy `int64`
arithmetic does on overflow. -/
def i64wrap (z : Int) : Int :=
  (z + 2 ^ 63) % 2 ^ 64 - 2 ^ 63

/-- `np.sum` over an `int64` array: fold with wrapping addition. -/
def npSumI64 (l : List Int) : Int :=
  l.foldl (fun a x => i64wrap (a + x)) 0

/-! ## Moment statistics (comparison_MWD_con_50.py, lines 63-70)

    sum_lengths = np.sum(filtered_chain_lengths)
    Mn = np.mean(filtered_chain_lengths)
    Mw = np.sum(filtered_chain_lengths.astype(np.float64)**2) / sum_lengths
    PDI = Mw / Mn

`astype(np.float64)` widens each chain length to a float before squaring;
floats are modelled as exact rationals.  `sum_lengths` is an int64 sum and
wraps on overflow, so `Mw`'s denominator is the wrapped sum `npSumI64`
(`np.mean` computes in float64 and is modelled exactly). -/

/-- Sum of the chain lengths, as a float. -/
def S1 (l : List Int) : ℚ :=
  (l.map (Int.cast : Int → ℚ)).sum

/-- Sum of the squared chain lengths after widening each value to
`float64` (line 69's `astype(np.float64)**2`). -/
def S2 (l : List Int) : ℚ :=
  (l.map (fun x => (Int.cast x : ℚ) ^ 2)).sum

/-- `Mn = np.mean(filtered_chain_lengths)`. -/
def Mn (l : List Int) : ℚ :=
  S1 l / l.length

/-- `Mw = np.sum(filtered.astype(np.float64)**2) / sum_lengths`, where
`sum_lengths` is the wrapped int64 sum of line 63. -/
def Mw (l : List Int) : ℚ :=
  S2 l / ((npSumI64 l : Int) : ℚ)

/-- `PDI = Mw / Mn`. -/
def PDI (l : List Int) : ℚ :=
  Mw l / Mn l

/-- Modelled from the spec: the arithmetic mean of a sample, written
directly from the spec's words "Mn = arithmetic mean of the sample". -/
def arithmeticMean (l : List Int) : ℚ :=
  (l.map (Int.cast : Int → ℚ)).sum / l.length

/-! ## int64 arithmetic of `comparison_MWD_con.py` (lines 58-59)

    Mn = np.mean(lengths)
    Mw = np.sum(lengths**2) / np.sum(lengths)

Here `lengths` is an `int64` array and `lengths**2` squares WITHOUT
widening: products and sums wrap modulo 2^64 (signed). -/

namespace Con

/-- `np.sum(lengths**2)` over an `int64` array: each square wraps, and so
does the running sum. -/
def sumSqI64 (l : List Int) : Int :=
  l.foldl (fun a x => i64wrap (a + i64wrap (x * x))) 0

/-- `Mw = np.sum(lengths**2) / np.sum(lengths)` of `comparison_MWD_con.py`:
integer sums (with int64 wraparound), then float division. -/
def MwI64 (l : List Int) : ℚ :=
  (sumSqI64 l : ℚ) / (npSumI64 l : ℚ)

end Con

/-! ## process_and_get_mwd_data (comparison_MWD_con_50.py, lines 43-78)

The guard cascade of the function, through the moment statistics.  The
subsequent KDE / weight-fraction step (lines 80-107) is modelled
separately by `kernel_weight_density` below; the dict returned at line 111
carries the stats modelled here. -/

/-- Guard cascade of `process_and_get_mwd_data` up to the computed
moments: `None` on a failed read, on an empty array, on an empty filtered
array, or on a zero `sum_lengths` (line 64's `sum_lengths == 0`, with
`sum_lengths` the wrapped int64 sum); otherwise the `(Mn, Mw, PDI)` of
the filtered sample. -/
def process_and_get_mwd_data (load : Con50.LoadResult) : Option (ℚ × ℚ × ℚ) :=
  match load with
  | .pyNone => none
  | .arr chain_lengths =>
    if chain_lengths.length = 0 then none
    else
      let filtered := numpyFilterGE chain_lengths 3
      if filtered.length = 0 then none
      else if npSumI64 filtered = 0 then none
      else some (Mn filtered, Mw filtered, PDI filtered)

/-! ## Trapezoidal integration and the kernel weight density
(comparison_MWD_con_50.py, lines 92-102)

    w_unnormalized = np.maximum(x_vals, 1e-9) * kde_vals
    norm_factor = trapz(w_unnormalized, x_vals)
    if norm_factor <= 1e-9:
        w_vals_normalized = np.zeros_like(w_unnormalized)   # + warning
    else:
        w_vals_normalized = w_unnormalized / norm_factor

The scipy `gaussian_kde` evaluations are third-party transcendental code;
they enter the model as an arbitrary list `kdevals` of curve values. -/

/-- `np.trapz(y, x)`: sum of `(x_{i+1} - x_i) * (y_i + y_{i+1}) / 2` over
adjacent pairs. -/
def trapz : List ℚ → List ℚ → ℚ
  | y1 :: y2 :: ys, x1 :: x2 :: xs =>
    (x2 - x1) * (y1 + y2) / 2 + trapz (y2 :: ys) (x2 :: xs)
  | _, _ => 0

/-- `w_unnormalized = np.maximum(x_vals, 1e-9) * kde_vals` (line 92). -/
def w_unnormalized (xvals kdevals : List ℚ) : List ℚ :=
  List.zipWith (fun xi ki => max xi (1 / 10 ^ 9) * ki) xvals kdevals

/-- `norm_factor = trapz(w_unnormalized, x_vals)` (line 95). -/
def norm_factor (xvals kdevals : List ℚ) : ℚ :=
  trapz (w_unnormalized xvals kdevals) xvals

/-- Lines 98-102: the normalized weight-fraction curve, with the failure
flag `true` exactly when the near-zero-normalizer warning is emitted and
an all-zero curve is returned instead of dividing. -/
def kernel_weight_density (xvals kdevals : List ℚ) : Bool × List ℚ :=
  if norm_factor xvals kdevals ≤ 1 / 10 ^ 9 then
    (true, (w_unnormalized xvals kdevals).map (fun _ => 0))
  else
    (false, (w_unnormalized xvals kdevals).map (fun v => v / norm_factor xvals kdevals))

/-! ## Histogram weight density
(comparison_MWD_con_50.py, lines 123-154, `calculate_weight_fraction_histogram`)

    counts, bin_edges = np.histogram(data, bins=bins)
    bin_centers = 0.5 * (bin_edges[1:] + bin_edges[:-1])
    weight_counts = counts * bin_centers
    total_weight = np.sum(weight_counts)
    if total_weight <= 0:
        return bin_edges, np.zeros_like(counts), bin_centers   # + warning
    bin_widths = np.diff(bin_edges)
    weight_fraction = weight_counts / (total_weight * bin_widths)
    return bin_edges, weight_fraction, bin_centers
-/

/-- `np.linspace(a, b, n)`: `n` evenly spaced points from `a` to `b`. -/
def linspace (a b : ℚ) (n : Nat) : List ℚ :=
  (List.range n).map
    (fun i => a + (Nat.cast i : ℚ) * (b - a) / ((Nat.cast n : ℚ) - 1))

/-- `np.min` on a non-empty array (0 on the empty array). -/
def npMin : List ℚ → ℚ
  | [] => 0
  | a :: t => t.foldl min a

/-- `np.max` on a non-empty array (0 on the empty array). -/
def npMax : List ℚ → ℚ
  | [] => 0
  | a :: t => t.foldl max a

/-- Bin edges of `np.histogram(data, bins)`: `bins + 1` evenly spaced
edges over the data range, the degenerate range `[a, a]` being expanded to
`[a - 1/2, a + 1/2]` as numpy's `_get_outer_edges` does. -/
def histEdges (data : List ℚ) (bins : Nat) : List ℚ :=
  if npMin data = npMax data then
    linspace (npMin data - 1 / 2) (npMax data + 1 / 2) (bins + 1)
  else linspace (npMin data) (npMax data) (bins + 1)

/-- Per-bin counts of `np.histogram`: each bin is half-open
`[e_i, e_{i+1})` except the last, which is closed. -/
def histCountsAux (data : List ℚ) : List ℚ → List Nat
  | e1 :: e2 :: e3 :: rest =>
    data.countP (fun v => decide (e1 ≤ v ∧ v < e2)) ::
      histCountsAux data (e2 :: e3 :: rest)
  | [e1, e2] => [data.countP (fun v => decide (e1 ≤ v ∧ v ≤ e2))]
  | _ => []

/-- `counts` of `np.histogram(data, bins)`. -/
def histCounts (data : List ℚ) (bins : Nat) : List Nat :=
  histCountsAux data (histEdges data bins)

/-- `bin_centers = 0.5 * (bin_edges[1:] + bin_edges[:-1])`. -/
def histCenters (data : List ℚ) (bins : Nat) : List ℚ :=
  List.zipWith (fun a b => (a + b) / 2) (histEdges data bins) (histEdges data bins).tail

/-- `weight_counts = counts * bin_centers`. -/
def weightCounts (data : List ℚ) (bins : Nat) : List ℚ :=
  List.zipWith (fun c x => (Nat.cast c : ℚ) * x) (histCounts data bins)
    (histCenters data bins)

/-- `total_weight = np.sum(weight_counts)`. -/
def totalWeight (data : List ℚ) (bins : Nat) : ℚ :=
  (weightCounts data bins).sum

/-- `bin_widths = np.diff(bin_edges)`. -/
def histWidths (data : List ℚ) (bins : Nat) : List ℚ :=
  List.zipWith (fun a b => b - a) (histEdges data bins) (histEdges data bins).tail

/-- Result of `calculate_weight_fraction_histogram`: the bin edges, the
failure flag (`true` exactly when the total-weight warning fires and the
all-zero vector is returned), the weight-fraction values and the bin
centers. -/
structure HistResult where
  bin_edges : List ℚ
  failure : Bool
  weight_fraction : List ℚ
  bin_centers : List ℚ
deriving DecidableEq

/-- `calculate_weight_fraction_histogram(data, bins)`. -/
def calculate_weight_fraction_histogram (data : List ℚ) (bins : Nat) : HistResult :=
  if totalWeight data bins ≤ 0 then
    ⟨histEdges data bins, true, (histCounts data bins).map (fun _ => 0),
      histCenters data bins⟩
  else
    ⟨histEdges data bins, false,
      List.zipWith (fun wc w => wc / (totalWeight data bins * w))
        (weightCounts data bins) (histWidths data bins),
      histCenters data bins⟩

/-! ## Helper lemmas -/

/-- Boolean-mask selection is `List.filter`. -/
theorem numpyFilterGE_eq_filter (l : List Int) (t : Int) :
    numpyFilterGE l t = l.filter (fun x => decide (t ≤ x)) := by
  induction l with
  | nil => rfl
  | cons x xs ih =>
    by_cases h : t ≤ x <;> simp [numpyFilterGE, List.filter_cons, h, ih]

/-- The token comprehension of the `_50` loader is filter-then-parse. -/
theorem parseTokens_eq (toks : List String) :
    Con50.parseTokens toks = (toks.filter (fun t => pyIsDigit t)).map digitsVal := by
  induction toks with
  | nil => rfl
  | cons t ts ih =>
    by_cases h : pyIsDigit t = true <;>
      simp [Con50.parseTokens, List.filterMap_cons, List.filter_cons, h] <;>
      simpa [Con50.parseTokens] using ih

/-! ## Helper lemmas about the int64 sum -/

/-- `i64wrap` is the identity on the signed 64-bit range. -/
theorem i64wrap_eq_self (z : Int) (h1 : -(2 ^ 63) ≤ z) (h2 : z < 2 ^ 63) :
    i64wrap z = z := by
  unfold i64wrap
  have hl : (0 : Int) ≤ z + 2 ^ 63 := by omega
  have hr : z + 2 ^ 63 < 2 ^ 64 := by omega
  rw [Int.emod_eq_of_lt hl hr]
  omega

/-- The wrapping fold agrees with the exact sum while every partial sum
stays below `2^63` (nonnegative summands, nonnegative start). -/
theorem npSumI64_foldl_eq (l : List Int) :
    ∀ a : Int, 0 ≤ a → (∀ x ∈ l, 0 ≤ x) → a + l.sum < 2 ^ 63 →
      l.foldl (fun a x => i64wrap (a + x)) a = a + l.sum := by
  induction l with
  | nil => intro a _ _ _; simp
  | cons x xs ih =>
    intro a ha hall hlt
    have hx : 0 ≤ x := hall x (List.mem_cons_self x xs)
    have hxs : 0 ≤ xs.sum :=
      List.sum_nonneg (fun y hy => hall y (List.mem_cons_of_mem _ hy))
    have hsum_cons : (x :: xs).sum = x + xs.sum := List.sum_cons
    rw [hsum_cons] at hlt
    have hwrap : i64wrap (a + x) = a + x :=
      i64wrap_eq_self _ (by omega) (by omega)
    rw [List.foldl_cons, hwrap,
      ih (a + x) (by omega)
        (fun y hy => hall y (List.mem_cons_of_mem _ hy)) (by omega)]
    rw [hsum_cons]
    ring

/-- For a sample of nonnegative lengths whose true sum fits in int64,
`np.sum` does not wrap. -/
theorem npSumI64_eq_sum (l : List Int) (hall : ∀ x ∈ l, 0 ≤ x)
    (hlt : l.sum < 2 ^ 63) : npSumI64 l = l.sum := by
  unfold npSumI64
  have h := npSumI64_foldl_eq l 0 le_rfl hall (by omega)
  simpa using h

/-- The float sum of the lengths is the cast of the exact integer sum. -/
theorem S1_eq_cast_sum (l : List Int) : S1 l = ((l.sum : Int) : ℚ) := by
  unfold S1
  induction l with
  | nil => simp
  | cons x xs ih =>
    rw [List.map_cons, List.sum_cons, List.sum_cons, ih]
    push_cast
    ring

/-- In the no-wrap regime, line 69's `Mw` equals the exact
(sum of squares) / (sum of lengths). -/
theorem Mw_eq_exact (l : List Int) (hall : ∀ x ∈ l, 0 ≤ x)
    (hlt : l.sum < 2 ^ 63) : Mw l = S2 l / S1 l := by
  unfold Mw
  rw [npSumI64_eq_sum l hall hlt, S1_eq_cast_sum]

/-! ## C1 -/

/-- C1 counterexample: on the sample `[2^62, 2^62, 2^62]` (non-empty,
every element `≥ 1`) the int64 `sum_lengths` of line 63 wraps to
`-(2^62)`, so the computed `Mw` is `-(3 * 2^62)`, not the claimed
(sum of squares) / (sum of lengths) `= 2^62`. -/
theorem C1_counterexample :
    ([2 ^ 62, 2 ^ 62, 2 ^ 62] : List Int) ≠ [] ∧
    (∀ x ∈ ([2 ^ 62, 2 ^ 62, 2 ^ 62] : List Int), 1 ≤ x) ∧
    Mw [2 ^ 62, 2 ^ 62, 2 ^ 62] = -(3 * 2 ^ 62) ∧
    S2 [2 ^ 62, 2 ^ 62, 2 ^ 62] / S1 [2 ^ 62, 2 ^ 62, 2 ^ 62] = 2 ^ 62 ∧
    Mw [2 ^ 62, 2 ^ 62, 2 ^ 62] ≠
      S2 [2 ^ 62, 2 ^ 62, 2 ^ 62] / S1 [2 ^ 62, 2 ^ 62, 2 ^ 62] := by
  have hden : npSumI64 [2 ^ 62, 2 ^ 62, 2 ^ 62] = -(2 ^ 62) := by decide
  have hMw : Mw [2 ^ 62, 2 ^ 62, 2 ^ 62] = -(3 * 2 ^ 62) := by
    unfold Mw
    rw [hden]
    norm_num [S2]
  have hexact :
      S2 [2 ^ 62, 2 ^ 62, 2 ^ 62] / S1 [2 ^ 62, 2 ^ 62, 2 ^ 62] = 2 ^ 62 := by
    norm_num [S1, S2]
  refine ⟨by decide, by decide, hMw, hexact, ?_⟩
  rw [hMw, hexact]
  norm_num

/-- C1 amended: `Mn` is the arithmetic mean and `PDI = Mw / Mn` for every
sample; `Mw` equals (sum of squared lengths) / (sum of lengths) whenever
the int64 `sum_lengths` does not wrap (nonnegative lengths with true sum
below `2^63`); on `[1, 2, 3]` the results are `Mn = 2`, `Mw = 14/6`,
`PDI = 7/6`. -/
theorem C1_amended :
    (∀ l : List Int, Mn l = arithmeticMean l ∧ PDI l = Mw l / Mn l) ∧
    (∀ l : List Int, (∀ x ∈ l, 0 ≤ x) → l.sum < 2 ^ 63 →
        Mw l = S2 l / S1 l) ∧
    Mn [1, 2, 3] = 2 ∧ Mw [1, 2, 3] = 14 / 6 ∧ PDI [1, 2, 3] = 7 / 6 := by
  have h123 : Mw [1, 2, 3] = 14 / 6 := by
    rw [Mw_eq_exact [1, 2, 3] (by decide) (by decide)]
    norm_num [S1, S2]
  refine ⟨fun _ => ⟨rfl, rfl⟩, fun l hall hlt => Mw_eq_exact l hall hlt,
    by norm_num [Mn, S1], h123, ?_⟩
  show Mw [1, 2, 3] / Mn [1, 2, 3] = 7 / 6
  rw [h123]
  norm_num [Mn, S1]

/-- Witness for C1 amended: the no-wrap conjunct applied to `[1, 2, 3]`. -/
theorem C1_amended_witness :
    (∀ x ∈ ([1, 2, 3] : List Int), 0 ≤ x) ∧
    ([1, 2, 3] : List Int).sum < 2 ^ 63 ∧
    Mw [1, 2, 3] = S2 [1, 2, 3] / S1 [1, 2, 3] :=
  ⟨by decide, by decide, C1_amended.2.1 [1, 2, 3] (by decide) (by decide)⟩

/-! ## C7 -/

/-- C7: the filter returns exactly the subsequence of elements `≥ min_len`
in original order (it is `List.filter`, hence a sublist), the removed
count is the original length minus the filtered length; filtering
`[1,2,3,4,5]` with bound 3 gives `[3,4,5]` with 2 removed; and when the
filtered result is empty `process_and_get_mwd_data` computes no
statistics (returns `none`, the `InsufficientData` outcome). -/
theorem C7_filter_min_length :
    (∀ (l : List Int) (t : Int),
        numpyFilterGE l t = l.filter (fun x => decide (t ≤ x)) ∧
        (numpyFilterGE l t).Sublist l ∧
        removed_chains l t + (numpyFilterGE l t).length = l.length) ∧
    numpyFilterGE [1, 2, 3, 4, 5] 3 = [3, 4, 5] ∧
    removed_chains [1, 2, 3, 4, 5] 3 = 2 ∧
    ∀ l : List Int, numpyFilterGE l 3 = [] →
      process_and_get_mwd_data (Con50.LoadResult.arr l) = none := by
  refine ⟨fun l t => ⟨numpyFilterGE_eq_filter l t, ?_, ?_⟩, by decide, by decide, ?_⟩
  · rw [numpyFilterGE_eq_filter]; exact List.filter_sublist l
  · have hle : (numpyFilterGE l t).length ≤ l.length := by
      rw [numpyFilterGE_eq_filter]; exact List.length_filter_le _ l
    simp [removed_chains, Nat.sub_add_cancel hle]
  · intro l h
    by_cases hl : l.length = 0 <;> simp [process_and_get_mwd_data, h, hl]

/-- Witness for C7: on `[1, 2]` the filter with bound 3 empties the
sample and `process_and_get_mwd_data` indeed yields `none`. -/
theorem C7_filter_min_length_witness :
    numpyFilterGE [1, 2] 3 = [] ∧
    process_and_get_mwd_data (Con50.LoadResult.arr [1, 2]) = none :=
  ⟨by decide, C7_filter_min_length.2.2.2 [1, 2] (by decide)⟩

/-! ## C4 -/

/-- C4: neither density estimator divides by a near-zero normalizer: the
kernel estimator, whenever the trapezoidal integral of the unnormalized
weight density is at or below `1e-9`, reports the failure (flag `true`,
the warning branch of lines 98-100) and returns an all-zero curve; the
histogram estimator, whenever the total weighted sum is at or below zero,
reports the failure and returns all-zero weight-fraction values
(lines 146-148). -/
theorem C4_normalization_failure :
    (∀ xvals kdevals : List ℚ, norm_factor xvals kdevals ≤ 1 / 10 ^ 9 →
        (kernel_weight_density xvals kdevals).1 = true ∧
        ∀ v ∈ (kernel_weight_density xvals kdevals).2, v = 0) ∧
    (∀ (data : List ℚ) (bins : Nat), totalWeight data bins ≤ 0 →
        (calculate_weight_fraction_histogram data bins).failure = true ∧
        ∀ v ∈ (calculate_weight_fraction_histogram data bins).weight_fraction,
          v = 0) := by
  constructor
  · intro xvals kdevals h
    constructor
    · unfold kernel_weight_density
      rw [if_pos h]
    · intro v hv
      unfold kernel_weight_density at hv
      rw [if_pos h] at hv
      simp only [List.mem_map] at hv
      obtain ⟨_, _, rfl⟩ := hv
      rfl
  · intro data bins h
    constructor
    · unfold calculate_weight_fraction_histogram
      rw [if_pos h]
    · intro v hv
      unfold calculate_weight_fraction_histogram at hv
      rw [if_pos h] at hv
      simp only [List.mem_map] at hv
      obtain ⟨_, _, rfl⟩ := hv
      rfl

/-- Witness for C4: the kernel estimator on the all-zero curve over
`x = [0, 1]` has normalizer 0 and fails to zeros, and the histogram
estimator on the sample `[0]` has total weight 0 and fails to zeros. -/
theorem C4_normalization_failure_witness :
    (norm_factor [0, 1] [0, 0] ≤ 1 / 10 ^ 9 ∧
      (kernel_weight_density [0, 1] [0, 0]).1 = true ∧
      ∀ v ∈ (kernel_weight_density [0, 1] [0, 0]).2, v = 0) ∧
    (totalWeight [0] 1 ≤ 0 ∧
      (calculate_weight_fraction_histogram [0] 1).failure = true ∧
      ∀ v ∈ (calculate_weight_fraction_histogram [0] 1).weight_fraction,
        v = 0) := by
  have h1 : norm_factor [0, 1] [0, 0] ≤ 1 / 10 ^ 9 := by
    norm_num [norm_factor, w_unnormalized, trapz]
  have h2 : totalWeight [0] 1 ≤ 0 := by
    norm_num [totalWeight, weightCounts, histCounts, histCountsAux, histEdges,
      histCenters, npMin, npMax, linspace, List.range, List.range.loop]
  exact ⟨⟨h1, C4_normalization_failure.1 [0, 1] [0, 0] h1⟩,
    ⟨h2, C4_normalization_failure.2 [0] 1 h2⟩⟩

/-! ## Helper lemmas about token parsing -/

/-- On an all-digit token, Python `int(_)` succeeds with the digit value. -/
theorem pyParseIntL_digits (c : Char) (cs : List Char)
    (hall : (c :: cs).all pyIsDigitChar = true) :
    pyParseIntL (c :: cs) = some (digitsValL (c :: cs)) := by
  have hc : pyIsDigitChar c = true := by
    simp only [List.all_cons, Bool.and_eq_true] at hall
    exact hall.1
  have hplus : ¬ c = '+' := by
    intro hEq
    rw [hEq] at hc
    exact absurd hc (by decide)
  have hminus : ¬ c = '-' := by
    intro hEq
    rw [hEq] at hc
    exact absurd hc (by decide)
  simp [pyParseIntL, hplus, hminus, hall]

/-- On a token passing `isdigit`, `int(_)` succeeds with the digit value. -/
theorem pyParseInt_of_isDigit (t : String) (h : pyIsDigit t = true) :
    pyParseInt t = some (digitsVal t) := by
  unfold pyIsDigit at h
  unfold pyParseInt digitsVal
  cases hd : t.data with
  | nil => rw [hd] at h; simp at h
  | cons c cs =>
    rw [hd] at h
    simp only [Bool.and_eq_true] at h
    exact pyParseIntL_digits c cs h.2

/-- When every token passes `isdigit`, the strict loader's comprehension
parses them all in order. -/
theorem parseAll_of_all_digits (toks : List String) :
    (∀ t ∈ toks, pyIsDigit t = true) →
      Con.parseAll toks = some (toks.map digitsVal) := by
  induction toks with
  | nil => intro _; rfl
  | cons t ts ih =>
    intro h
    have h1 := pyParseInt_of_isDigit t (h t (List.mem_cons_self t ts))
    have h2 := ih (fun u hu => h u (List.mem_cons_of_mem _ hu))
    simp [Con.parseAll, h1, h2]

/-- The digit-value fold stays nonnegative on digit characters. -/
theorem digitsValL_nonneg_aux (cs : List Char) :
    ∀ a : Int, (∀ c ∈ cs, pyIsDigitChar c = true) → 0 ≤ a →
      0 ≤ cs.foldl (fun a c => 10 * a + ((c.toNat : Int) - 48)) a := by
  induction cs with
  | nil => intro a _ ha; simpa using ha
  | cons c cs ih =>
    intro a h ha
    have hc : 48 ≤ c.toNat := by
      have hd := h c (List.mem_cons_self c cs)
      simp only [pyIsDigitChar, decide_eq_true_eq] at hd
      exact hd.1
    refine ih _ (fun d hd => h d (List.mem_cons_of_mem _ hd)) ?_
    have hcast : (48 : Int) ≤ (c.toNat : Int) := by exact_mod_cast hc
    show 0 ≤ 10 * a + ((c.toNat : Int) - 48)
    omega

/-- A token passing `isdigit` parses to a nonnegative integer. -/
theorem digitsVal_nonneg (t : String) (h : pyIsDigit t = true) :
    0 ≤ digitsVal t := by
  unfold pyIsDigit at h
  unfold digitsVal digitsValL
  cases hd : t.data with
  | nil => simp
  | cons c cs =>
    rw [hd] at h
    simp only [Bool.and_eq_true] at h
    refine digitsValL_nonneg_aux (c :: cs) 0 ?_ le_rfl
    intro d hd2
    exact (List.all_eq_true.1 h.2) d hd2

/-! ## C5 -/

/-- C5 counterexample: the claim says the chain lengths are widened to
float64 before squaring at every place `Mw` is computed; but
`comparison_MWD_con.py` squares in int64 (`lengths**2` with no
`astype`), and on the sample `[2^32]` its sum of squares wraps to 0 and
its `Mw` is 0, while the widened computation gives `2^32`. -/
theorem C5_counterexample :
    Con.sumSqI64 [2 ^ 32] = 0 ∧ Con.MwI64 [2 ^ 32] = 0 ∧
    Mw [2 ^ 32] = 2 ^ 32 ∧ Con.MwI64 [2 ^ 32] ≠ Mw [2 ^ 32] := by
  have h1 : Con.MwI64 [2 ^ 32] = 0 := by
    norm_num [Con.MwI64, Con.sumSqI64, npSumI64, i64wrap]
  have h2 : Mw [2 ^ 32] = 2 ^ 32 := by
    rw [Mw_eq_exact [2 ^ 32] (by decide) (by decide)]
    norm_num [S1, S2]
  exact ⟨by decide, h1, h2, by rw [h1, h2]; norm_num⟩

/-- C5 amended: only `comparison_MWD_con_50.py` widens to float64 before
squaring — there the sum of squares is the exact sum of the integer
squares for every sample (no integer overflow); `comparison_MWD_con.py`
squares in 64-bit integer arithmetic, which wraps: on `[2^32]` it
computes `Mw = 0` where the widened computation gives `2^32`. -/
theorem C5_amended :
    (∀ l : List Int, S2 l = (l.map (fun x => ((x * x : Int) : ℚ))).sum) ∧
    Mw [2 ^ 32] = 2 ^ 32 ∧ Con.MwI64 [2 ^ 32] = 0 := by
  refine ⟨?_,
    by rw [Mw_eq_exact [2 ^ 32] (by decide) (by decide)]; norm_num [S1, S2],
    by norm_num [Con.MwI64, Con.sumSqI64, npSumI64, i64wrap]⟩
  intro l
  unfold S2
  induction l with
  | nil => rfl
  | cons x xs ih =>
    rw [List.map_cons, List.map_cons, List.sum_cons, List.sum_cons, ih]
    push_cast
    ring

/-! ## C6 -/

/-- C6 counterexample: the loader of `comparison_MWD_con.py` does not
drop the malformed token of `"10 20 foo 30\n"`: the uncaught
`ValueError` aborts it (result `none`), instead of the sample
`[10, 20, 30]` the claim requires. -/
theorem C6_counterexample :
    Con.read_chain_lengths (fun _ => some "10 20 foo 30\n") "f.out" = none ∧
    (none : Option (List Int)) ≠ some [10, 20, 30] :=
  ⟨by decide, by decide⟩

/-- C6 amended: the `comparison_MWD_con_50.py` loader silently drops each
token failing the digit test and returns the remaining integers in
encounter order — on `"10 20 foo 30\n"` it returns `[10, 20, 30]` — while
the `comparison_MWD_con.py` loader fails on the first malformed token. -/
theorem C6_amended :
    (∀ toks : List String,
        Con50.parseTokens toks =
          (toks.filter (fun t => pyIsDigit t)).map digitsVal) ∧
    Con50.read_chain_lengths (fun _ => some "10 20 foo 30\n") "f.out" =
      Con50.LoadResult.arr [10, 20, 30] ∧
    Con.read_chain_lengths (fun _ => some "10 20 foo 30\n") "f.out" = none :=
  ⟨parseTokens_eq, by decide, by decide⟩

/-! ## C8 -/

/-- C8 counterexample: a file holding the single token `"0"` loads (via
the `comparison_MWD_con_50.py` loader) to the sample `[0]`, whose element
is not `≥ 1`. -/
theorem C8_counterexample :
    Con50.read_chain_lengths (fun _ => some "0") "p.out" =
      Con50.LoadResult.arr [0] ∧
    ¬ (1 ≤ (0 : Int)) :=
  ⟨by decide, by decide⟩

/-- C8 amended: every element of a sample returned by the
`comparison_MWD_con_50.py` loader is `≥ 0` (its digit test admits no sign,
but admits `0`). -/
theorem C8_amended (fs : String → Option String) (path : String)
    (l : List Int)
    (h : Con50.read_chain_lengths fs path = Con50.LoadResult.arr l) :
    ∀ x ∈ l, 0 ≤ x := by
  unfold Con50.read_chain_lengths at h
  split at h
  · exact absurd h (by simp)
  · injection h with hl
    subst hl
    intro x hx
    simp only [Con50.parseTokens, List.mem_filterMap] at hx
    obtain ⟨t, _, ht⟩ := hx
    by_cases hd : pyIsDigit t = true
    · rw [if_pos hd] at ht
      obtain rfl : digitsVal t = x := by injection ht
      exact digitsVal_nonneg t hd
    · rw [if_neg hd] at ht
      exact absurd ht (by simp)

/-- Witness for C8 amended: a concrete load whose elements are all `≥ 0`. -/
theorem C8_amended_witness :
    Con50.read_chain_lengths (fun _ => some "10 20 30") "w.out" =
      Con50.LoadResult.arr [10, 20, 30] ∧
    ∀ x ∈ ([10, 20, 30] : List Int), 0 ≤ x :=
  ⟨by decide,
    C8_amended (fun _ => some "10 20 30") "w.out" [10, 20, 30] (by decide)⟩

/-! ## C9 -/

/-- C9 counterexample: the `comparison_MWD_con.py` loader (also cited by
the claim) does not return a `ParseEmpty` error distinct from `NotFound`:
on an existing file whose tokens are all non-numeric it fails with an
uncaught `ValueError` — the same observable failure (`none`) as on a
missing path. -/
theorem C9_counterexample :
    Con.read_chain_lengths
      (fun p => if p = "e.out" then some "foo bar" else none) "e.out" =
      none ∧
    Con.read_chain_lengths
      (fun p => if p = "e.out" then some "foo bar" else none) "missing" =
      none :=
  ⟨by decide, by decide⟩

/-- C9 amended: the `comparison_MWD_con_50.py` loader returns Python
`None` (the `NotFound` error) when the path references no readable file,
returns the empty array (the `ParseEmpty` error) when the file exists but
no token parses as an integer, and these two results are distinct from
each other and from every non-empty sample; the `comparison_MWD_con.py`
loader instead fails identically in both cases. -/
theorem C9_loader_errors :
    (∀ (fs : String → Option String) (path : String), fs path = none →
        Con50.read_chain_lengths fs path = Con50.LoadResult.pyNone) ∧
    (∀ (fs : String → Option String) (path content : String),
        fs path = some content →
        (∀ t ∈ pySplit content, pyIsDigit t = false) →
        Con50.read_chain_lengths fs path = Con50.LoadResult.arr []) ∧
    Con50.LoadResult.pyNone ≠ Con50.LoadResult.arr [] ∧
    (∀ l : List Int, l ≠ [] →
        Con50.LoadResult.arr [] ≠ Con50.LoadResult.arr l) := by
  refine ⟨?_, ?_, by simp, ?_⟩
  · intro fs path h
    unfold Con50.read_chain_lengths
    rw [h]
  · intro fs path content hfs hnod
    unfold Con50.read_chain_lengths
    rw [hfs]
    have hfil : (pySplit content).filter (fun t => pyIsDigit t) = [] := by
      rw [List.filter_eq_nil_iff]
      intro t ht
      simp [hnod t ht]
    show Con50.LoadResult.arr (Con50.parseTokens (pySplit content)) =
      Con50.LoadResult.arr []
    rw [parseTokens_eq, hfil]
    rfl
  · intro l hl h
    injection h with h2
    exact hl h2.symm

/-- Witness for C9: a missing path yields `None`; the all-non-numeric file
`"foo bar"` yields the empty array; both differ from the sample `[10]`. -/
theorem C9_loader_errors_witness :
    ((fun _ : String => (none : Option String)) "x" = none ∧
      Con50.read_chain_lengths (fun _ => none) "x" =
        Con50.LoadResult.pyNone) ∧
    ((fun _ : String => some "foo bar") "y" = some "foo bar" ∧
      (∀ t ∈ pySplit "foo bar", pyIsDigit t = false) ∧
      Con50.read_chain_lengths (fun _ => some "foo bar") "y" =
        Con50.LoadResult.arr []) ∧
    (([10] : List Int) ≠ [] ∧
      Con50.LoadResult.arr [] ≠ Con50.LoadResult.arr [10]) :=
  ⟨⟨rfl, C9_loader_errors.1 _ "x" rfl⟩,
   ⟨rfl, by decide, C9_loader_errors.2.1 _ "y" "foo bar" rfl (by decide)⟩,
   ⟨by decide, C9_loader_errors.2.2.2 [10] (by decide)⟩⟩

/-! ## C10 -/

/-- C10 counterexample: on the content `"10 20 foo 30\n"` the
`comparison_MWD_con.py` loader fails while the
`comparison_MWD_con_50.py` loader succeeds with `[10, 20, 30]`, so the
two loaders are not extensionally equal. -/
theorem C10_counterexample :
    Con.read_chain_lengths (fun _ => some "10 20 foo 30\n") "c.out" = none ∧
    Con50.read_chain_lengths (fun _ => some "10 20 foo 30\n") "c.out" =
      Con50.LoadResult.arr [10, 20, 30] ∧
    ([10, 20, 30] : List Int) ≠ [] :=
  ⟨by decide, by decide, by decide⟩

/-- C10 amended: the two loaders agree on every file content whose
whitespace-separated tokens are all nonempty digit strings — both return
that token list parsed in order; they differ when a token fails the digit
test (`comparison_MWD_con.py` fails, `comparison_MWD_con_50.py` drops
it). -/
theorem C10_amended (fs : String → Option String) (path content : String)
    (hfs : fs path = some content)
    (hdig : ∀ t ∈ pySplit content, pyIsDigit t = true) :
    Con.read_chain_lengths fs path =
      some ((pySplit content).map digitsVal) ∧
    Con50.read_chain_lengths fs path =
      Con50.LoadResult.arr ((pySplit content).map digitsVal) := by
  constructor
  · unfold Con.read_chain_lengths
    rw [hfs]
    exact parseAll_of_all_digits _ hdig
  · unfold Con50.read_chain_lengths
    rw [hfs]
    show Con50.LoadResult.arr (Con50.parseTokens (pySplit content)) =
      Con50.LoadResult.arr ((pySplit content).map digitsVal)
    rw [parseTokens_eq, List.filter_eq_self.2 hdig]

/-- Witness for C10 amended: on the all-digit content `"10 20 30"` both
loaders return the same parsed sequence. -/
theorem C10_amended_witness :
    (fun _ : String => some "10 20 30") "w" = some "10 20 30" ∧
    (∀ t ∈ pySplit "10 20 30", pyIsDigit t = true) ∧
    (Con.read_chain_lengths (fun _ => some "10 20 30") "w" =
        some ((pySplit "10 20 30").map digitsVal) ∧
      Con50.read_chain_lengths (fun _ => some "10 20 30") "w" =
        Con50.LoadResult.arr ((pySplit "10 20 30").map digitsVal)) :=
  ⟨rfl, by decide, C10_amended _ "w" "10 20 30" rfl (by decide)⟩

/-! ## Helper lemmas for C2 (Cauchy-Schwarz on lists) -/

/-- Sum of squared deviations from `a`, expanded. -/
theorem sum_sq_dev (a : ℚ) (t : List ℚ) :
    (t.map (fun y => (a - y) ^ 2)).sum =
      (t.length : ℚ) * a ^ 2 - 2 * a * t.sum +
        (t.map (fun y => y ^ 2)).sum := by
  induction t with
  | nil => simp
  | cons y ys ih =>
    rw [List.map_cons, List.sum_cons, List.map_cons, List.sum_cons, ih,
      List.length_cons, List.sum_cons]
    push_cast
    ring

/-- Peeling one element off the Cauchy-Schwarz defect
`n * Σ y² - (Σ y)²`. -/
theorem key_identity (a : ℚ) (t : List ℚ) :
    ((a :: t).length : ℚ) * ((a :: t).map (fun y => y ^ 2)).sum -
        (a :: t).sum ^ 2 =
      ((t.length : ℚ) * (t.map (fun y => y ^ 2)).sum - t.sum ^ 2) +
        (t.map (fun y => (a - y) ^ 2)).sum := by
  rw [sum_sq_dev, List.length_cons, List.map_cons, List.sum_cons,
    List.sum_cons]
  push_cast
  ring

/-- A sum of squares over a list is nonnegative. -/
theorem sum_sq_nonneg (a : ℚ) (t : List ℚ) :
    0 ≤ (t.map (fun y => (a - y) ^ 2)).sum := by
  apply List.sum_nonneg
  intro x hx
  obtain ⟨y, _, rfl⟩ := List.mem_map.1 hx
  positivity

/-- Cauchy-Schwarz for lists: `(Σ y)² ≤ n * Σ y²`. -/
theorem key_nonneg (q : List ℚ) :
    0 ≤ (q.length : ℚ) * (q.map (fun y => y ^ 2)).sum - q.sum ^ 2 := by
  induction q with
  | nil => simp
  | cons a t ih =>
    rw [key_identity]
    have := sum_sq_nonneg a t
    linarith

/-- A sum of squared deviations vanishes iff every element equals `a`. -/
theorem sum_sq_eq_zero_iff (a : ℚ) (t : List ℚ) :
    (t.map (fun y => (a - y) ^ 2)).sum = 0 ↔ ∀ y ∈ t, y = a := by
  induction t with
  | nil => simp
  | cons y ys ih =>
    rw [List.map_cons, List.sum_cons]
    have h1 : 0 ≤ (a - y) ^ 2 := sq_nonneg _
    have h2 : 0 ≤ (ys.map (fun z => (a - z) ^ 2)).sum := sum_sq_nonneg a ys
    constructor
    · intro h
      have ha : (a - y) ^ 2 = 0 := by linarith
      have hb : (ys.map (fun z => (a - z) ^ 2)).sum = 0 := by linarith
      have hy : y = a := by
        have := sq_eq_zero_iff.1 ha
        linarith
      intro z hz
      rcases List.mem_cons.1 hz with rfl | hz'
      · exact hy
      · exact ih.1 hb z hz'
    · intro h
      have hy : y = a := h y (List.mem_cons_self y ys)
      have hrest : ∀ z ∈ ys, z = a :=
        fun z hz => h z (List.mem_cons_of_mem _ hz)
      rw [ih.2 hrest, hy]
      ring

/-- Equality case of list Cauchy-Schwarz: the defect vanishes iff all
elements are equal. -/
theorem key_eq_iff (q : List ℚ) :
    (q.length : ℚ) * (q.map (fun y => y ^ 2)).sum - q.sum ^ 2 = 0 ↔
      ∀ x ∈ q, ∀ y ∈ q, x = y := by
  induction q with
  | nil => simp
  | cons a t ih =>
    rw [key_identity]
    have hA := key_nonneg t
    have hB := sum_sq_nonneg a t
    constructor
    · intro h
      have hA0 : (t.length : ℚ) * (t.map (fun y => y ^ 2)).sum - t.sum ^ 2 = 0 := by
        linarith
      have hB0 : (t.map (fun y => (a - y) ^ 2)).sum = 0 := by linarith
      have hall : ∀ y ∈ t, y = a := (sum_sq_eq_zero_iff a t).1 hB0
      intro x hx y hy
      rcases List.mem_cons.1 hx with rfl | hx' <;>
        rcases List.mem_cons.1 hy with rfl | hy'
      · rfl
      · exact (hall _ hy').symm
      · exact hall _ hx'
      · rw [hall _ hx', hall _ hy']
    · intro h
      have hall : ∀ y ∈ t, y = a :=
        fun y hy => h y (List.mem_cons_of_mem _ hy) a (List.mem_cons_self a t)
      have hB0 : (t.map (fun y => (a - y) ^ 2)).sum = 0 :=
        (sum_sq_eq_zero_iff a t).2 hall
      have hA0 : (t.length : ℚ) * (t.map (fun y => y ^ 2)).sum - t.sum ^ 2 = 0 :=
        ih.2 (fun x hx y hy => by rw [hall x hx, hall y hy])
      rw [hA0, hB0]
      ring

/-- All pairs of casts are equal iff all pairs of the integers are. -/
theorem pairwise_cast_iff (l : List Int) :
    (∀ x ∈ l.map (Int.cast : Int → ℚ), ∀ y ∈ l.map (Int.cast : Int → ℚ),
        x = y) ↔
      ∀ x ∈ l, ∀ y ∈ l, x = y := by
  constructor
  · intro h x hx y hy
    have := h _ (List.mem_map_of_mem _ hx) _ (List.mem_map_of_mem _ hy)
    exact_mod_cast this
  · intro h x hx y hy
    obtain ⟨a, ha, rfl⟩ := List.mem_map.1 hx
    obtain ⟨b, hb, rfl⟩ := List.mem_map.1 hy
    exact congrArg _ (h a ha b hb)

/-! ## C2 -/

/-- C2 counterexample: on `[2^62, 2^62, 2^62]` — non-empty, positive,
all elements equal — the int64 `sum_lengths` wraps to `-(2^62)`, so the
program computes `Mw = -(3 * 2^62) < Mn = 2^62` and `PDI = -3 < 1`,
refuting the claimed universal `Mw ≥ Mn` / `PDI ≥ 1` (and the equality
case, since all elements are equal yet `PDI ≠ 1`). -/
theorem C2_counterexample :
    ([2 ^ 62, 2 ^ 62, 2 ^ 62] : List Int) ≠ [] ∧
    (∀ x ∈ ([2 ^ 62, 2 ^ 62, 2 ^ 62] : List Int), 0 < x) ∧
    (∀ x ∈ ([2 ^ 62, 2 ^ 62, 2 ^ 62] : List Int),
      ∀ y ∈ ([2 ^ 62, 2 ^ 62, 2 ^ 62] : List Int), x = y) ∧
    Mw [2 ^ 62, 2 ^ 62, 2 ^ 62] < Mn [2 ^ 62, 2 ^ 62, 2 ^ 62] ∧
    PDI [2 ^ 62, 2 ^ 62, 2 ^ 62] < 1 := by
  have hden : npSumI64 [2 ^ 62, 2 ^ 62, 2 ^ 62] = -(2 ^ 62) := by decide
  have hMw : Mw [2 ^ 62, 2 ^ 62, 2 ^ 62] = -(3 * 2 ^ 62) := by
    unfold Mw
    rw [hden]
    norm_num [S2]
  have hMn : Mn [2 ^ 62, 2 ^ 62, 2 ^ 62] = 2 ^ 62 := by
    norm_num [Mn, S1]
  have hPDI : PDI [2 ^ 62, 2 ^ 62, 2 ^ 62] < 1 := by
    show Mw [2 ^ 62, 2 ^ 62, 2 ^ 62] / Mn [2 ^ 62, 2 ^ 62, 2 ^ 62] < 1
    rw [hMw, hMn]
    norm_num
  refine ⟨by decide, by decide, by decide, ?_, hPDI⟩
  rw [hMw, hMn]
  norm_num

/-- C2 amended: for every non-empty sequence of positive integers whose
int64 `sum_lengths` does not wrap (true sum below `2^63`), `Mw ≥ Mn` and
`PDI ≥ 1`, with equality (in either form) iff all elements of the
sequence are equal. -/
theorem C2_pdi_ge_one (l : List Int) (hne : l ≠ [])
    (hpos : ∀ x ∈ l, 0 < x) (hnw : l.sum < 2 ^ 63) :
    Mn l ≤ Mw l ∧ 1 ≤ PDI l ∧
    (Mw l = Mn l ↔ ∀ x ∈ l, ∀ y ∈ l, x = y) ∧
    (PDI l = 1 ↔ ∀ x ∈ l, ∀ y ∈ l, x = y) := by
  have hMw : Mw l = S2 l / S1 l :=
    Mw_eq_exact l (fun x hx => le_of_lt (hpos x hx)) hnw
  set q : List ℚ := l.map (Int.cast : Int → ℚ) with hq
  have hqpos : ∀ v ∈ q, 0 < v := by
    intro v hv
    obtain ⟨a, ha, rfl⟩ := List.mem_map.1 hv
    exact_mod_cast hpos a ha
  have hqne : q ≠ [] := by
    intro h0
    exact hne (List.map_eq_nil_iff.mp h0)
  have hS1 : 0 < S1 l := List.sum_pos q hqpos hqne
  have hlen : 0 < ((l.length : ℚ)) := by
    have : 0 < l.length := List.length_pos.2 hne
    exact_mod_cast this
  have hS1q : S1 l = q.sum := rfl
  have hS2q : S2 l = (q.map (fun y => y ^ 2)).sum := by
    rw [hq, List.map_map]
    rfl
  have hlenq : q.length = l.length := List.length_map l _
  have key := key_nonneg q
  rw [hlenq, ← hS2q, ← hS1q] at key
  have hMnpos : 0 < Mn l := div_pos hS1 hlen
  have h1 : Mn l ≤ Mw l := by
    rw [hMw]
    show S1 l / (l.length : ℚ) ≤ S2 l / S1 l
    rw [div_le_div_iff₀ hlen hS1]
    nlinarith [key]
  have h2 : 1 ≤ PDI l := by
    show 1 ≤ Mw l / Mn l
    exact (one_le_div hMnpos).2 h1
  have h3 : Mw l = Mn l ↔ ∀ x ∈ l, ∀ y ∈ l, x = y := by
    have hiff : Mw l = Mn l ↔ S2 l * (l.length : ℚ) = S1 l * S1 l := by
      rw [hMw]
      show S2 l / S1 l = S1 l / (l.length : ℚ) ↔ _
      exact div_eq_div_iff (ne_of_gt hS1) (ne_of_gt hlen)
    rw [hiff]
    constructor
    · intro h
      refine (pairwise_cast_iff l).1 ((key_eq_iff q).1 ?_)
      rw [hlenq, ← hS2q, ← hS1q]
      linear_combination h
    · intro h
      have h0 := (key_eq_iff q).2 ((pairwise_cast_iff l).2 h)
      rw [hlenq, ← hS2q, ← hS1q] at h0
      linear_combination h0
  have h4 : PDI l = 1 ↔ Mw l = Mn l := by
    show Mw l / Mn l = 1 ↔ _
    have hMnne : Mn l ≠ 0 := ne_of_gt hMnpos
    constructor
    · intro h
      field_simp at h
      exact h
    · intro h
      rw [h, div_self hMnne]
  exact ⟨h1, h2, h3, h4.trans h3⟩

/-- Witness for C2 amended: the theorem applied to the concrete sample
`[1, 2]`, whose sum does not wrap. -/
theorem C2_pdi_ge_one_witness :
    (([1, 2] : List Int) ≠ [] ∧ (∀ x ∈ ([1, 2] : List Int), 0 < x) ∧
      ([1, 2] : List Int).sum < 2 ^ 63) ∧
    (Mn [1, 2] ≤ Mw [1, 2] ∧ 1 ≤ PDI [1, 2] ∧
      (Mw [1, 2] = Mn [1, 2] ↔
        ∀ x ∈ ([1, 2] : List Int), ∀ y ∈ ([1, 2] : List Int), x = y) ∧
      (PDI [1, 2] = 1 ↔
        ∀ x ∈ ([1, 2] : List Int), ∀ y ∈ ([1, 2] : List Int), x = y)) :=
  ⟨⟨by decide, by decide, by decide⟩,
    C2_pdi_ge_one [1, 2] (by decide) (by decide) (by decide)⟩

/-! ## Helper lemmas for C3 -/

/-- `np.trapz` is homogeneous: dividing every `y` value by `c` divides the
integral by `c`. -/
theorem trapz_map_div (c : ℚ) (y : List ℚ) :
    ∀ x : List ℚ, trapz (y.map (fun v => v / c)) x = trapz y x / c := by
  induction y with
  | nil => intro x; simp [trapz]
  | cons y1 t ih =>
    intro x
    cases t with
    | nil =>
      cases x with
      | nil => simp [trapz]
      | cons x1 xs => cases xs <;> simp [trapz]
    | cons y2 ys =>
      cases x with
      | nil => simp [trapz]
      | cons x1 xs =>
        cases xs with
        | nil => simp [trapz]
        | cons x2 xs2 =>
          simp only [List.map_cons, trapz]
          have hrec :
              trapz (y2 / c :: ys.map (fun v => v / c)) (x2 :: xs2) =
                trapz (y2 :: ys) (x2 :: xs2) / c := by
            have h0 := ih (x2 :: xs2)
            simpa [List.map_cons] using h0
          rw [hrec]
          ring

/-- `np.linspace` produces the requested number of points. -/
theorem linspace_length (a b : ℚ) (n : Nat) : (linspace a b n).length = n := by
  simp [linspace]

/-- Value of the `i`-th linspace point. -/
theorem linspace_getElem (a b : ℚ) (n i : Nat)
    (h : i < (linspace a b n).length) :
    (linspace a b n)[i] = a + (i : ℚ) * (b - a) / ((n : ℚ) - 1) := by
  simp [linspace]

/-- Every adjacent difference of an `(n+1)`-point linspace equals
`(b - a) / n`. -/
theorem zip_diff_linspace (a b : ℚ) (n : Nat) (w : ℚ)
    (hw : w ∈ List.zipWith (fun p q => q - p) (linspace a b (n + 1))
      (linspace a b (n + 1)).tail) :
    w = (b - a) / (n : ℚ) := by
  obtain ⟨i, hi, hieq⟩ := List.mem_iff_getElem.1 hw
  rw [List.getElem_zipWith] at hieq
  rw [List.getElem_tail] at hieq
  rw [linspace_getElem, linspace_getElem] at hieq
  rw [← hieq]
  push_cast
  ring

/-- The number of histogram edges is `bins + 1`. -/
theorem histEdges_length (data : List ℚ) (bins : Nat) :
    (histEdges data bins).length = bins + 1 := by
  unfold histEdges
  split <;> simp [linspace]

/-- The counting walk yields one count per adjacent edge pair. -/
theorem histCountsAux_length (data : List ℚ) (es : List ℚ) :
    (histCountsAux data es).length = es.length - 1 := by
  induction es with
  | nil => rfl
  | cons e1 tl ih =>
    cases tl with
    | nil => rfl
    | cons e2 tl2 =>
      cases tl2 with
      | nil => rfl
      | cons e3 r =>
        simp only [histCountsAux, List.length_cons] at ih ⊢
        omega

/-- The histogram has `bins` counts. -/
theorem histCounts_length (data : List ℚ) (bins : Nat) :
    (histCounts data bins).length = bins := by
  unfold histCounts
  rw [histCountsAux_length, histEdges_length]
  omega

/-- The histogram has `bins` centers. -/
theorem histCenters_length (data : List ℚ) (bins : Nat) :
    (histCenters data bins).length = bins := by
  simp only [histCenters, List.length_zipWith, List.length_tail,
    histEdges_length]
  omega

/-- The histogram has `bins` widths. -/
theorem histWidths_length (data : List ℚ) (bins : Nat) :
    (histWidths data bins).length = bins := by
  simp only [histWidths, List.length_zipWith, List.length_tail,
    histEdges_length]
  omega

/-- The histogram has `bins` weighted counts. -/
theorem weightCounts_length (data : List ℚ) (bins : Nat) :
    (weightCounts data bins).length = bins := by
  simp only [weightCounts, List.length_zipWith, histCounts_length,
    histCenters_length]
  omega

/-- Folding `min` only lowers the initial value. -/
theorem foldl_min_le_init (t : List ℚ) : ∀ a : ℚ, t.foldl min a ≤ a := by
  induction t with
  | nil => intro a; exact le_refl a
  | cons y ys ih => intro a; exact le_trans (ih (min a y)) (min_le_left a y)

/-- Folding `max` only raises the initial value. -/
theorem le_foldl_max_init (t : List ℚ) : ∀ a : ℚ, a ≤ t.foldl max a := by
  induction t with
  | nil => intro a; exact le_refl a
  | cons y ys ih => intro a; exact le_trans (le_max_left a y) (ih (max a y))

/-- On a non-empty array, `np.min ≤ np.max`. -/
theorem npMin_le_npMax (data : List ℚ) (hd : data ≠ []) :
    npMin data ≤ npMax data := by
  cases data with
  | nil => exact absurd rfl hd
  | cons a t =>
    exact le_trans (foldl_min_le_init t a) (le_foldl_max_init t a)

/-- With at least one bin and a non-empty sample, every histogram bin
width is positive (numpy expands a degenerate range to width 1). -/
theorem histWidths_pos (data : List ℚ) (bins : Nat) (hd : data ≠ [])
    (hb : 1 ≤ bins) : ∀ w ∈ histWidths data bins, 0 < w := by
  intro w hw
  have hbins : 0 < (bins : ℚ) := by exact_mod_cast hb
  unfold histWidths histEdges at hw
  by_cases h : npMin data = npMax data
  · rw [if_pos h] at hw
    have := zip_diff_linspace (npMin data - 1 / 2) (npMax data + 1 / 2)
      bins w hw
    rw [this, h]
    have h1 : npMax data + 1 / 2 - (npMax data - 1 / 2) = 1 := by ring
    rw [h1]
    positivity
  · rw [if_neg h] at hw
    have := zip_diff_linspace (npMin data) (npMax data) bins w hw
    rw [this]
    have hlt : npMin data < npMax data :=
      lt_of_le_of_ne (npMin_le_npMax data hd) h
    have h2 : 0 < npMax data - npMin data := by linarith
    positivity

/-- Multiplying the normalized weight fractions back by the widths and
summing telescopes to `Σ wc / t`. -/
theorem zip_div_mul_sum (t : ℚ) (ht : t ≠ 0) :
    ∀ wc ws : List ℚ, wc.length = ws.length → (∀ w ∈ ws, w ≠ 0) →
      (List.zipWith (fun v w => v * w)
        (List.zipWith (fun c w => c / (t * w)) wc ws) ws).sum = wc.sum / t := by
  intro wc
  induction wc with
  | nil => intro ws _ _; simp
  | cons c wcs ih =>
    intro ws hlen hw
    cases ws with
    | nil => simp at hlen
    | cons w wss =>
      have hw0 : w ≠ 0 := hw w (List.mem_cons_self w wss)
      have hrest := ih wss (by simpa using hlen)
        (fun u hu => hw u (List.mem_cons_of_mem _ hu))
      simp only [List.zipWith_cons_cons, List.sum_cons]
      rw [hrest]
      have hc : c / (t * w) * w = c / t := by
        field_simp
        ring
      rw [hc, add_div]

/-! ## C3 -/

/-- C3: on success (normalizer above the `1e-9` threshold / total weight
positive), both density estimators return a unit-area curve: the kernel
estimator's values have trapezoidal integral exactly 1 over the x grid
(hence within any tolerance such as `1e-3`), and the histogram
estimator's weight fractions satisfy `Σ value_i * width_i = 1`. -/
theorem C3_unit_area :
    (∀ xvals kdevals : List ℚ, 1 / 10 ^ 9 < norm_factor xvals kdevals →
        trapz (kernel_weight_density xvals kdevals).2 xvals = 1) ∧
    (∀ (data : List ℚ) (bins : Nat), data ≠ [] → (∀ v ∈ data, 3 ≤ v) →
        1 ≤ bins → 0 < totalWeight data bins →
        (List.zipWith (fun v w => v * w)
          (calculate_weight_fraction_histogram data bins).weight_fraction
          (histWidths data bins)).sum = 1) := by
  constructor
  · intro xvals kdevals h
    have hnf : norm_factor xvals kdevals ≠ 0 := by
      have h0 : (0 : ℚ) < 1 / 10 ^ 9 := by norm_num
      exact ne_of_gt (lt_trans h0 h)
    unfold kernel_weight_density
    rw [if_neg (not_le.2 h)]
    show trapz ((w_unnormalized xvals kdevals).map
      (fun v => v / norm_factor xvals kdevals)) xvals = 1
    rw [trapz_map_div]
    exact div_self hnf
  · intro data bins hne _ hb hpos
    have htne : totalWeight data bins ≠ 0 := ne_of_gt hpos
    unfold calculate_weight_fraction_histogram
    rw [if_neg (not_le.2 hpos)]
    show (List.zipWith (fun v w => v * w)
      (List.zipWith (fun wc w => wc / (totalWeight data bins * w))
        (weightCounts data bins) (histWidths data bins))
      (histWidths data bins)).sum = 1
    have hlen : (weightCounts data bins).length =
        (histWidths data bins).length := by
      rw [weightCounts_length, histWidths_length]
    have hws : ∀ w ∈ histWidths data bins, w ≠ 0 :=
      fun w hw => ne_of_gt (histWidths_pos data bins hne hb w hw)
    rw [zip_div_mul_sum (totalWeight data bins) htne
      (weightCounts data bins) (histWidths data bins) hlen hws]
    exact div_self htne

/-- Witness for C3: the kernel estimator on the curve `[1, 1]` over
`x = [0, 1]` and the histogram estimator on the sample `[3, 4]` with one
bin both integrate to 1. -/
theorem C3_unit_area_witness :
    (1 / 10 ^ 9 < norm_factor [0, 1] [1, 1] ∧
      trapz (kernel_weight_density [0, 1] [1, 1]).2 [0, 1] = 1) ∧
    (([3, 4] : List ℚ) ≠ [] ∧ (∀ v ∈ ([3, 4] : List ℚ), 3 ≤ v) ∧
      (1 : Nat) ≤ 1 ∧ 0 < totalWeight [3, 4] 1 ∧
      (List.zipWith (fun v w => v * w)
        (calculate_weight_fraction_histogram [3, 4] 1).weight_fraction
        (histWidths [3, 4] 1)).sum = 1) := by
  have hk : 1 / 10 ^ 9 < norm_factor [0, 1] [1, 1] := by
    norm_num [norm_factor, w_unnormalized, trapz]
  have hne : ([3, 4] : List ℚ) ≠ [] := by simp
  have h3 : ∀ v ∈ ([3, 4] : List ℚ), 3 ≤ v := by
    intro v hv
    fin_cases hv <;> norm_num
  have ht : 0 < totalWeight [3, 4] 1 := by
    norm_num [totalWeight, weightCounts, histCounts, histCountsAux,
      histEdges, histCenters, npMin, npMax, linspace, List.range,
      List.range.loop]
  exact ⟨⟨hk, C3_unit_area.1 [0, 1] [1, 1] hk⟩,
    ⟨hne, h3, le_refl 1, ht, C3_unit_area.2 [3, 4] 1 hne h3 (le_refl 1) ht⟩⟩

end ATRP
